import Mathlib

/-!
Verification of the coedit client collaboration code.

JavaScript strings are modelled as lists of Unicode code points
(`JStr := List Nat`); a lone surrogate produced by a UTF-16 slice is kept
as its own code point.  `strLen` is JavaScript's `String.prototype.length`
(UTF-16 code units); spreading a string (`[...s]`) is the identity on the
model.  Machine numbers that only ever hold small non-negative integers
are `Nat`; revision counters that the protocol compares with `<` are `Int`.
-/

namespace Coedit

/-- A JavaScript string: the sequence of its Unicode code points. -/
abbrev JStr := List Nat

/-- Number of UTF-16 code units a single code point occupies. -/
def utf16Len (c : Nat) : Nat := if c < 0x10000 then 1 else 2

/-- JavaScript `String.prototype.length`: UTF-16 code units. -/
def strLen (s : JStr) : Nat := (s.map utf16Len).sum

/-- `src/web/app/lib/ot.ts`: the operation type. -/
inductive Op where
  | insert (pos : Nat) (text : JStr)
  | delete (pos : Nat) (len : Nat)
deriving DecidableEq, Repr

/-- One step of `applyOps`: JS `[...s].slice(0, pos)` is `take pos` and
`[...s].slice(k)` is `drop k` (array slices clamp out-of-range indices). -/
def applyOp (s : JStr) : Op → JStr
  | .insert pos text => s.take pos ++ text ++ s.drop pos
  | .delete pos len => s.take pos ++ s.drop (pos + len)

/-- `src/web/app/lib/ot.ts` `applyOps`: left fold of the ops over the text. -/
def applyOps (content : JStr) (ops : List Op) : JStr := ops.foldl applyOp content

/-- Length of the longest common prefix: the `i`-loop of `diffToOps`. -/
def commonPrefixLen : JStr → JStr → Nat
  | x :: xs, y :: ys => if x = y then commonPrefixLen xs ys + 1 else 0
  | _, _ => 0

/-- The local `i` of `diffToOps`: the common-prefix scan. -/
def diffI (before after : JStr) : Nat := commonPrefixLen before after

/-- The local `j` of `diffToOps`: the suffix scan
`while (j < a.length - i && j < b.length - i && a[a.length-1-j] === b[b.length-1-j]) j++`
stops at the first mismatch (the common prefix of the reversed arrays) or
at either length bound, whichever comes first. -/
def diffJ (before after : JStr) : Nat :=
  min (commonPrefixLen before.reverse after.reverse)
    (min (before.length - diffI before after) (after.length - diffI before after))

/-- The local `beforeMid` of `diffToOps`: `a.slice(i, a.length - j)`. -/
def diffBeforeMid (before after : JStr) : JStr :=
  (before.drop (diffI before after)).take (before.length - diffJ before after - diffI before after)

/-- The local `afterMid` of `diffToOps`: `b.slice(i, b.length - j)`. -/
def diffAfterMid (before after : JStr) : JStr :=
  (after.drop (diffI before after)).take (after.length - diffJ before after - diffI before after)

/-- `src/web/app/lib/ot.ts` `diffToOps`.  The emitted delete length is the
*UTF-16* length of the joined `beforeMid` string (`beforeMid.length`),
while positions count code points. -/
def diffToOps (before after : JStr) : List Op :=
  if before = after then []
  else
    (if 0 < strLen (diffBeforeMid before after) then
      [Op.delete (diffI before after) (strLen (diffBeforeMid before after))] else [])
      ++ (if 0 < strLen (diffAfterMid before after) then
        [Op.insert (diffI before after) (diffAfterMid before after)] else [])

/-- `src/web/app/lib/api.ts` `SelectionDirection`. -/
inductive SelectionDirection where
  | forward
  | backward
deriving DecidableEq, Repr

/-- `src/web/app/lib/api.ts` `CursorState`. -/
structure CursorState where
  position : Nat
  anchor : Option Nat := none
  selection_direction : Option SelectionDirection := none
deriving DecidableEq, Repr

/-- `src/web/app/lib/realtime.ts` `PendingEdit`. -/
structure PendingEdit where
  op_id : String
  base_rev : Int
  ops : List Op
  cursor_before : Option CursorState := none
  cursor_after : Option CursorState := none
  ts : Option Int := none
deriving DecidableEq, Repr

/-- `src/web/app/lib/realtime.ts` `PendingQueueSnapshot` (both fields optional). -/
structure PendingQueueSnapshot where
  latestAck : Option Int := none
  items : Option (List PendingEdit) := none
deriving DecidableEq, Repr

/-- `src/web/app/lib/realtime.ts` `PendingQueue`: the private fields `q` and
`latestAck` (initial values `[]` and `0`). -/
structure PendingQueue where
  q : List PendingEdit := []
  latestAck : Int := 0
deriving DecidableEq, Repr

/-- `PendingQueue.enqueue`: `this.q.push(edit)`. -/
def PendingQueue.enqueue (pq : PendingQueue) (edit : PendingEdit) : PendingQueue :=
  { pq with q := pq.q ++ [edit] }

/-- `PendingQueue.ack`.  `if (opts.opId)` is JS truthiness, so an empty
string does not filter; `serverSeq` only advances `latestAck` when larger. -/
def PendingQueue.ack (pq : PendingQueue) (opId : Option String) (serverSeq : Option Int) :
    PendingQueue :=
  let q1 := match opId with
    | some oid => if oid = "" then pq.q else pq.q.filter (fun e => e.op_id ≠ oid)
    | none => pq.q
  let la1 := match serverSeq with
    | some s => if pq.latestAck < s then s else pq.latestAck
    | none => pq.latestAck
  ⟨q1, la1⟩

/-- `PendingQueue.setLatestServerSeq`: raises `latestAck` to `seq` when larger. -/
def PendingQueue.setLatestServerSeq (pq : PendingQueue) (seq : Int) : PendingQueue :=
  if pq.latestAck < seq then { pq with latestAck := seq } else pq

/-- `PendingQueue.isEmpty`. -/
def PendingQueue.isEmpty (pq : PendingQueue) : Bool := pq.q.isEmpty

/-- `PendingQueue.snapshot`: returns both fields; the items and their ops
are deep-copied, which on immutable values is the identity. -/
def PendingQueue.snapshot (pq : PendingQueue) : PendingQueueSnapshot :=
  ⟨some pq.latestAck, some pq.q⟩

/-- The argument of `PendingQueue.replace`:
`PendingQueueSnapshot | PendingEdit[] | undefined`. -/
inductive ReplaceArg where
  | undef
  | arr (items : List PendingEdit)
  | snap (s : PendingQueueSnapshot)
deriving DecidableEq, Repr

/-- `PendingQueue.replace`: the previous queue state is discarded entirely;
missing snapshot fields default to `[]` and `0`. -/
def PendingQueue.replace : ReplaceArg → PendingQueue
  | .undef => ⟨[], 0⟩
  | .arr items => ⟨items, 0⟩
  | .snap s => ⟨s.items.getD [], s.latestAck.getD 0⟩

/-- The client replica state touched by the WebSocket message handler in
`src/web/app/edit/[...slug]/page.tsx`: local text (`contentRef`), revision
(`revRef`) and the pending queue (`queueRef`). -/
structure ClientState where
  content : JStr
  rev : Int
  queue : PendingQueue
deriving DecidableEq, Repr

/-- `handleMessage`, `case 'op_broadcast'` in
`src/web/app/edit/[...slug]/page.tsx`: apply the remote operation to the
local text, set the revision to the broadcast `serverSeq`, and raise the
queue's `latestAck`.  The pending queue entries are not touched. -/
def handleOpBroadcast (st : ClientState) (operation : Op) (serverSeq : Int) : ClientState :=
  { content := applyOps st.content [operation]
    rev := serverSeq
    queue := st.queue.setLatestServerSeq serverSeq }

/-- A `/api/snapshot` response body (`src/web/app/lib/api.ts` `Snapshot`),
without the slug, which the reconciler does not read. -/
structure ServerSnapshot where
  rev : Int
  content : JStr
deriving DecidableEq, Repr

/-- `reconcileWithServer` in `src/web/app/edit/[...slug]/page.tsx`, as a
function of the fetched snapshot and the fresh `op_id`/timestamp it draws.
Returns the new state and the edit it enqueued and sent, if any. -/
def reconcileWithServer (st : ClientState) (snap : ServerSnapshot)
    (newOpId : String) (nowTs : Int) : ClientState × Option PendingEdit :=
  if ¬ st.queue.isEmpty then (st, none)
  else
    let st1 : ClientState := { st with rev := snap.rev
                                       queue := st.queue.setLatestServerSeq snap.rev }
    if snap.content ≠ st.content then
      let ops := diffToOps snap.content st.content
      if 0 < ops.length then
        let pending : PendingEdit := ⟨newOpId, snap.rev, ops, none, none, some nowTs⟩
        ({ st1 with queue := st1.queue.enqueue pending }, some pending)
      else (st1, none)
    else (st1, none)

/-- The code points `String.prototype.trim` removes: ECMAScript WhiteSpace
and LineTerminator. -/
def jsWhitespace (c : Nat) : Bool :=
  c = 0x9 ∨ c = 0xA ∨ c = 0xB ∨ c = 0xC ∨ c = 0xD ∨ c = 0x20 ∨ c = 0xA0 ∨
  c = 0x1680 ∨ (0x2000 ≤ c ∧ c ≤ 0x200A) ∨ c = 0x2028 ∨ c = 0x2029 ∨
  c = 0x202F ∨ c = 0x205F ∨ c = 0x3000 ∨ c = 0xFEFF

/-- JavaScript `String.prototype.trim`. -/
def jsTrim (s : JStr) : JStr :=
  ((s.dropWhile jsWhitespace).reverse.dropWhile jsWhitespace).reverse

/-- JavaScript `String.prototype.slice(0, n)`: keep the first `n` UTF-16
code units.  Cutting an astral code point in half leaves its unpaired high
surrogate in the result, exactly as in JS. -/
def utf16Take : Nat → JStr → JStr
  | 0, _ => []
  | _, [] => []
  | n + 1, c :: rest =>
    if c < 0x10000 then c :: utf16Take n rest
    else match n with
      | 0 => [0xD800 + (c - 0x10000) / 0x400]
      | m + 1 => c :: utf16Take m rest

/-- `fallbackLabel` in `src/web/app/edit/[...slug]/page.tsx`:
`ユーザー-` followed by `clientId.slice(0, 6)`. -/
def fallbackLabel (clientId : JStr) : JStr :=
  [0x30E6, 0x30FC, 0x30B6, 0x30FC, 0x2D] ++ utf16Take 6 clientId

/-- The label computed by `handleProfileSubmit`:
`profileNameInput.trim().slice(0, 32)`, or the fallback label when that is
empty.  `trimmed.length > 0` is a UTF-16 length test, true iff non-empty. -/
def profileFinalName (input clientId : JStr) : JStr :=
  let trimmed := utf16Take 32 (jsTrim input)
  if 0 < strLen trimmed then trimmed else fallbackLabel clientId

/-- The label the spec describes: truncation to 32 *code points* after
trimming.  (For comparison with `profileFinalName`, which truncates to 32
UTF-16 code units.) -/
def specFinalNameCodePoints (input clientId : JStr) : JStr :=
  let trimmed := (jsTrim input).take 32
  if 0 < trimmed.length then trimmed else fallbackLabel clientId

/-- One character of `[0-9a-fA-F]`. -/
def isHexDigit (c : Nat) : Bool :=
  (48 ≤ c ∧ c ≤ 57) ∨ (65 ≤ c ∧ c ≤ 70) ∨ (97 ≤ c ∧ c ≤ 102)

/-- The test `/^#([0-9a-fA-F]{6})$/.test(s)`: exactly `#` plus six hex
digits. -/
def isHexColorStr (s : JStr) : Bool :=
  match s with
  | 35 :: rest => rest.length = 6 ∧ rest.all isHexDigit
  | _ => false

/-- `resolvePresenceColor` in `src/web/app/edit/[...slug]/page.tsx`.
`color &&` is JS truthiness (an absent or empty string fails), then the
`#RRGGBB` regex; otherwise the color derived from the client id is used.
`deriveClientColor`'s HSL-to-RGB float arithmetic is abstracted as the
function argument `derive`. -/
def resolvePresenceColor (derive : JStr → JStr) (color : Option JStr) (clientId : JStr) :
    JStr :=
  match color with
  | some c => if c ≠ [] ∧ isHexColorStr c then c else derive clientId
  | none => derive clientId

/-- `WebSocket.readyState`. -/
inductive WsReadyState where
  | connecting
  | opened
  | closing
  | closedState
deriving DecidableEq, Repr

/-- What one `setInterval` tick of `useHeartbeat`
(`src/web/app/lib/realtime.ts`) did. -/
structure TickResult where
  sentPing : Bool
  closedSocket : Bool
  timedOut : Bool
  cancelledAfter : Bool
deriving DecidableEq, Repr

/-- The guard `typeof staleThresholdMs === 'number' && getLastMessageAt`
followed by `Date.now() - last > staleThresholdMs`. -/
def heartbeatStale (staleThresholdMs : Option Int) (hasGetLast : Bool) (now last : Int) :
    Bool :=
  match staleThresholdMs with
  | some t => hasGetLast && decide (t < now - last)
  | none => false

/-- One tick of `useHeartbeat`: return early unless the socket is OPEN and
the hook is not cancelled; when a stale threshold and `getLastMessageAt`
are configured and more than the threshold elapsed since the last message,
close the socket and fire `onTimeout` instead of pinging; otherwise send a
ping (a throwing send also closes and fires `onTimeout`). -/
def heartbeatTick (cancelled : Bool) (ready : WsReadyState) (staleThresholdMs : Option Int)
    (hasGetLast : Bool) (now last : Int) (sendOk : Bool) : TickResult :=
  if cancelled = true ∨ ready ≠ WsReadyState.opened then ⟨false, false, false, cancelled⟩
  else if heartbeatStale staleThresholdMs hasGetLast now last then ⟨false, true, true, true⟩
  else if sendOk then ⟨true, false, false, cancelled⟩
  else ⟨false, true, true, true⟩

/-- `useHeartbeat`'s interval: `intervalMs = 5000` by default. -/
def resolvedHeartbeatInterval (intervalMs : Option Nat) : Nat := intervalMs.getD 5000

/-- The edit page calls `useHeartbeat` with no `intervalMs`. -/
def editPageIntervalMs : Nat := resolvedHeartbeatInterval none

/-- The edit page's `staleThresholdMs: 30000`. -/
def editPageStaleThresholdMs : Int := 30000

/-- How an HTTP helper in `src/web/app/lib/api.ts` finishes. -/
inductive FetchOutcome where
  | unauthorized
  | genericError
  | success
deriving DecidableEq, Repr

/-- `Response.ok`: status in the inclusive range 200–299. -/
def resOk (status : Nat) : Bool := 200 ≤ status ∧ status ≤ 299

/-- `fetchSnapshot`'s handling of the response status: 401 throws
`UnauthorizedError`, any other non-ok status throws a plain `Error`,
otherwise the JSON body is returned. -/
def fetchSnapshotOutcome (status : Nat) : FetchOutcome :=
  if status = 401 then .unauthorized
  else if ¬ resOk status then .genericError
  else .success

/-- `updatePasswordOnServer`'s handling of the response status: the same
401 / non-ok / ok cascade as `fetchSnapshot`. -/
def updatePasswordOutcome (status : Nat) : FetchOutcome :=
  if status = 401 then .unauthorized
  else if ¬ resOk status then .genericError
  else .success

/-- Modelled from the spec: the OT `transform(op_a, op_b)` of §4.2 — the
client code base contains no transform function, so the transformation the
claim describes is taken from the spec's rules, with A the incoming (local
pending) op and B the already-applied (remote) op.  `tieA` stands for
`author_a < author_b`, the tie-break on equal insert positions.  Insert
text lengths count code points.  Delete-vs-delete removes the intersection
of the two ranges from A and shifts the remainder left past B's start. -/
def specTransform (tieA : Bool) : Op → Op → List Op
  | .insert pa ta, .insert pb tb =>
    if pa < pb ∨ (pa = pb ∧ tieA) then [.insert pa ta]
    else [.insert (pa + tb.length) ta]
  | .insert pa ta, .delete pb lb =>
    if pa ≤ pb then [.insert pa ta]
    else if pb + lb ≤ pa then [.insert (pa - lb) ta]
    else [.insert pb ta]
  | .delete pa la, .insert pb tb =>
    if pb ≤ pa then [.delete (pa + tb.length) la]
    else if pa + la ≤ pb then [.delete pa la]
    else [.delete pa (pb - pa), .delete (pb + tb.length) (la - (pb - pa))]
  | .delete pa la, .delete pb lb =>
    let overlap := min (pa + la) (pb + lb) - max pa pb
    let newLen := la - overlap
    let newPos := if pa ≤ pb then pa else max pb (pa - lb)
    if newLen = 0 then [] else [.delete newPos newLen]

/-- Modelled from the spec: a pending edit transformed element-wise against
a remote operation (the client in role A). -/
def specTransformEdit (tieA : Bool) (remote : Op) (e : PendingEdit) : PendingEdit :=
  { e with ops := (e.ops.map (fun o => specTransform tieA o remote)).foldr (· ++ ·) [] }

/-- The clamped application of a single operation, written from the spec's
words (§4.1): `pos := min(pos, |text|)`, and for a delete
`len := min(len, |text| - pos)`, in code points. -/
def clampedApplySpec (s : JStr) : Op → JStr
  | .insert pos text =>
    let p := min pos s.length
    s.take p ++ text ++ s.drop p
  | .delete pos len =>
    let p := min pos s.length
    let l := min len (s.length - p)
    s.take p ++ s.drop (p + l)

section Theorems

example : diffToOps [97, 98, 99] [97, 120, 99] = [.delete 1 1, .insert 1 [120]] := by decide

example : applyOps [97, 98, 99] (diffToOps [97, 98, 99] [97, 120, 99]) = [97, 120, 99] := by
  decide

theorem commonPrefixLen_le_left : ∀ a b : JStr, commonPrefixLen a b ≤ a.length := by
  intro a
  induction a with
  | nil => intro b; cases b <;> simp [commonPrefixLen]
  | cons x xs ih =>
    intro b
    cases b with
    | nil => simp [commonPrefixLen]
    | cons y ys =>
      by_cases h : x = y
      · have := ih ys
        simp only [commonPrefixLen, if_pos h, List.length_cons]
        omega
      · simp [commonPrefixLen, h]

theorem commonPrefixLen_le_right : ∀ a b : JStr, commonPrefixLen a b ≤ b.length := by
  intro a
  induction a with
  | nil => intro b; cases b <;> simp [commonPrefixLen]
  | cons x xs ih =>
    intro b
    cases b with
    | nil => simp [commonPrefixLen]
    | cons y ys =>
      by_cases h : x = y
      · have := ih ys
        simp only [commonPrefixLen, if_pos h, List.length_cons]
        omega
      · simp [commonPrefixLen, h]

theorem take_eq_take_of_le_commonPrefixLen :
    ∀ (a b : JStr) (n : Nat), n ≤ commonPrefixLen a b → a.take n = b.take n := by
  intro a
  induction a with
  | nil =>
    intro b n h
    cases b <;> simp_all [commonPrefixLen]
  | cons x xs ih =>
    intro b n h
    cases b with
    | nil => simp_all [commonPrefixLen]
    | cons y ys =>
      by_cases hxy : x = y
      · subst hxy
        have h' : n ≤ commonPrefixLen xs ys + 1 := by simpa [commonPrefixLen] using h
        cases n with
        | zero => simp
        | succ m =>
          simp only [List.take_succ_cons]
          rw [ih ys m (by omega)]
      · simp only [commonPrefixLen, if_neg hxy, Nat.le_zero] at h
        simp [h]

theorem eq_of_prefix_suffix_cover (a b : JStr) (i j : Nat)
    (hi : i ≤ commonPrefixLen a b) (hj : j ≤ commonPrefixLen a.reverse b.reverse)
    (ha : a.length = i + j) (hb : b.length = i + j) : a = b := by
  have htake : a.take i = b.take i := take_eq_take_of_le_commonPrefixLen a b i hi
  have hrevtake : a.reverse.take j = b.reverse.take j :=
    take_eq_take_of_le_commonPrefixLen a.reverse b.reverse j hj
  have hdropa : a.drop i = (a.reverse.take j).reverse := by
    have h1 : (a.drop i).reverse = a.reverse.take (a.length - i) := List.reverse_drop
    have h2 : a.length - i = j := by omega
    rw [h2] at h1
    rw [← h1, List.reverse_reverse]
  have hdropb : b.drop i = (b.reverse.take j).reverse := by
    have h1 : (b.drop i).reverse = b.reverse.take (b.length - i) := List.reverse_drop
    have h2 : b.length - i = j := by omega
    rw [h2] at h1
    rw [← h1, List.reverse_reverse]
  have hdrop : a.drop i = b.drop i := by rw [hdropa, hdropb, hrevtake]
  calc a = a.take i ++ a.drop i := (List.take_append_drop i a).symm
    _ = b.take i ++ b.drop i := by rw [htake, hdrop]
    _ = b := List.take_append_drop i b

theorem utf16Len_pos (c : Nat) : 0 < utf16Len c := by
  unfold utf16Len; split <;> omega

theorem strLen_pos_iff (s : JStr) : 0 < strLen s ↔ s ≠ [] := by
  cases s with
  | nil => simp [strLen]
  | cons c cs =>
    simp only [strLen, List.map_cons, List.sum_cons, ne_eq, reduceCtorEq, not_false_iff,
      iff_true]
    have := utf16Len_pos c
    omega

theorem diffJ_le_left (b a : JStr) : diffJ b a ≤ b.length - diffI b a := by
  unfold diffJ; omega

theorem diffJ_le_right (b a : JStr) : diffJ b a ≤ a.length - diffI b a := by
  unfold diffJ; omega

theorem diffToOps_eq_nil_iff (before after : JStr) :
    diffToOps before after = [] ↔ before = after := by
  constructor
  · intro h
    by_contra hne
    unfold diffToOps at h
    rw [if_neg hne] at h
    rcases List.append_eq_nil.mp h with ⟨h1, h2⟩
    have hbm : diffBeforeMid before after = [] := by
      by_cases hc : 0 < strLen (diffBeforeMid before after)
      · rw [if_pos hc] at h1; exact absurd h1 (by simp)
      · have := (strLen_pos_iff (diffBeforeMid before after)).not.mp hc
        simpa using this
    have ham : diffAfterMid before after = [] := by
      by_cases hc : 0 < strLen (diffAfterMid before after)
      · rw [if_pos hc] at h2; exact absurd h2 (by simp)
      · have := (strLen_pos_iff (diffAfterMid before after)).not.mp hc
        simpa using this
    have hil : diffI before after ≤ before.length := commonPrefixLen_le_left _ _
    have hir : diffI before after ≤ after.length := commonPrefixLen_le_right _ _
    have hjl := diffJ_le_left before after
    have hjr := diffJ_le_right before after
    have hlb : before.length ≤ diffI before after + diffJ before after := by
      unfold diffBeforeMid at hbm
      rcases List.take_eq_nil_iff.mp hbm with hk | hd
      · omega
      · have hlen := congrArg List.length hd
        simp only [List.length_drop, List.length_nil] at hlen
        omega
    have hla : after.length ≤ diffI before after + diffJ before after := by
      unfold diffAfterMid at ham
      rcases List.take_eq_nil_iff.mp ham with hk | hd
      · omega
      · have hlen := congrArg List.length hd
        simp only [List.length_drop, List.length_nil] at hlen
        omega
    have hjrev : diffJ before after ≤ commonPrefixLen before.reverse after.reverse := by
      unfold diffJ
      exact Nat.min_le_left _ _
    exact hne (eq_of_prefix_suffix_cover before after (diffI before after)
      (diffJ before after) (Nat.le_refl _) hjrev (by omega) (by omega))
  · intro h; simp [diffToOps, h]

theorem diffToOps_shape (before after : JStr) :
    diffToOps before after = [] ∨
    (∃ p l, diffToOps before after = [Op.delete p l]) ∨
    (∃ p t, diffToOps before after = [Op.insert p t]) ∨
    (∃ p l q t, diffToOps before after = [Op.delete p l, Op.insert q t]) := by
  unfold diffToOps
  by_cases h : before = after
  · simp [h]
  · rw [if_neg h]
    by_cases h1 : 0 < strLen (diffBeforeMid before after) <;>
      by_cases h2 : 0 < strLen (diffAfterMid before after)
    · rw [if_pos h1, if_pos h2]
      exact Or.inr (Or.inr (Or.inr ⟨_, _, _, _, rfl⟩))
    · rw [if_pos h1, if_neg h2]
      exact Or.inr (Or.inl ⟨_, _, rfl⟩)
    · rw [if_neg h1, if_pos h2]
      exact Or.inr (Or.inr (Or.inl ⟨_, _, rfl⟩))
    · rw [if_neg h1, if_neg h2]
      exact Or.inl rfl

theorem take_min_length (s : JStr) (n : Nat) : s.take (min n s.length) = s.take n := by
  rcases Nat.le_total n s.length with h | h
  · rw [Nat.min_eq_left h]
  · rw [Nat.min_eq_right h, List.take_length, List.take_of_length_le h]

theorem drop_min_length (s : JStr) (n : Nat) : s.drop (min n s.length) = s.drop n := by
  rcases Nat.le_total n s.length with h | h
  · rw [Nat.min_eq_left h]
  · rw [Nat.min_eq_right h, List.drop_length, (List.drop_eq_nil_of_le h).symm]

/-- C1.  The round trip `applyOps(a, diffToOps(a, b)) = b` fails: for
`a = "𝄞ab"` (U+1D11E is an astral code point, two UTF-16 units) and
`b = "b"`, `diffToOps` emits `delete(0, 3)` — `beforeMid.length` counts
UTF-16 units — but `applyOps` deletes three *code points*, wiping the
whole string, so the result is `""`, not `"b"`. -/
theorem diffToOps_roundtrip_fails_on_astral :
    diffToOps [0x1D11E, 97, 98] [98] = [Op.delete 0 3] ∧
    applyOps [0x1D11E, 97, 98] (diffToOps [0x1D11E, 97, 98] [98]) = [] ∧
    applyOps [0x1D11E, 97, 98] (diffToOps [0x1D11E, 97, 98] [98]) ≠ [98] := by decide

/-- C3.  `applyOps` on a single insert or delete with non-negative `pos`
and `len` never rejects the operation and equals its clamped application:
the effective position is `min(pos, |s|)` and, for a delete, the effective
length is `min(len, |s| - min(pos, |s|))`, in code points.
(`applyOps` is a total function, so no rejection is possible.) -/
theorem applyOps_single_op_clamps :
    ∀ (s : JStr) (op : Op), applyOps s [op] = clampedApplySpec s op := by
  intro s op
  cases op with
  | insert pos text =>
    simp only [applyOps, List.foldl, applyOp, clampedApplySpec]
    rw [take_min_length, drop_min_length]
  | delete pos len =>
    simp only [applyOps, List.foldl, applyOp, clampedApplySpec]
    have hpl : min pos s.length + min len (s.length - min pos s.length)
        = min (pos + len) s.length := by omega
    rw [take_min_length, hpl, drop_min_length]

/-- C4.  `diffToOps` returns at most two operations — at most one delete
and at most one insert, the delete (when present) first — and returns `[]`
exactly when the two strings are equal. -/
theorem diffToOps_minimality :
    ∀ before after : JStr,
      ((diffToOps before after = []) ↔ before = after) ∧
      (diffToOps before after = [] ∨
        (∃ p l, diffToOps before after = [Op.delete p l]) ∨
        (∃ p t, diffToOps before after = [Op.insert p t]) ∨
        (∃ p l q t, diffToOps before after = [Op.delete p l, Op.insert q t])) :=
  fun before after => ⟨diffToOps_eq_nil_iff before after, diffToOps_shape before after⟩

-- Spec scenario S1: C2's `Insert(1,"Y")` against the applied `Insert(1,"X")`
-- with author tiebreak `C1 < C2` becomes `Insert(2,"Y")`.
example : specTransform false (Op.insert 1 [89]) (Op.insert 1 [88]) = [Op.insert 2 [89]] := by
  decide

-- Spec scenario S2: C2's `Insert(3,"-")` against the applied `Delete(1,3)`
-- becomes `Insert(1,"-")`.
example : specTransform false (Op.insert 3 [45]) (Op.delete 1 3) = [Op.insert 1 [45]] := by
  decide

theorem setLatestServerSeq_q (pq : PendingQueue) (seq : Int) :
    (pq.setLatestServerSeq seq).q = pq.q := by
  unfold PendingQueue.setLatestServerSeq
  split <;> rfl

theorem setLatestServerSeq_latestAck (pq : PendingQueue) (seq : Int) :
    (pq.setLatestServerSeq seq).latestAck = max pq.latestAck seq := by
  unfold PendingQueue.setLatestServerSeq
  split
  · rename_i h
    show seq = max pq.latestAck seq
    omega
  · rename_i h
    show pq.latestAck = max pq.latestAck seq
    omega

/-- C2 counterexample.  A client holding a pending `insert(5, "x")` that
receives a broadcast of the remote op `insert(0, "ab")` would, per the
claim, transform the pending edit (role A) to `insert(7, "x")`; the code
leaves the queue entries untouched, so the claimed conjunction fails. -/
theorem opBroadcast_does_not_transform_queue :
    ¬ ((handleOpBroadcast ⟨[], 0, ⟨[⟨"e1", 0, [Op.insert 5 [120]], none, none, none⟩], 0⟩⟩
          (Op.insert 0 [97, 98]) 1).queue.q
        = [⟨"e1", 0, [Op.insert 5 [120]], none, none, none⟩].map
            (specTransformEdit false (Op.insert 0 [97, 98])) ∧
      (handleOpBroadcast ⟨[], 0, ⟨[⟨"e1", 0, [Op.insert 5 [120]], none, none, none⟩], 0⟩⟩
          (Op.insert 0 [97, 98]) 1).content = applyOps [] [Op.insert 0 [97, 98]] ∧
      (handleOpBroadcast ⟨[], 0, ⟨[⟨"e1", 0, [Op.insert 5 [120]], none, none, none⟩], 0⟩⟩
          (Op.insert 0 [97, 98]) 1).queue.latestAck = 1) := by decide

/-- C2 as amended.  On `op_broadcast` the client applies the remote
operation to the local text, sets the revision to the broadcast's
`serverSeq`, raises the queue's latest acknowledged server sequence to
`max(previous, serverSeq)`, and leaves every pending edit in the queue
unchanged — no transformation of pending edits takes place. -/
theorem opBroadcast_applies_and_leaves_queue :
    ∀ (st : ClientState) (operation : Op) (serverSeq : Int),
      (handleOpBroadcast st operation serverSeq).content = applyOps st.content [operation] ∧
      (handleOpBroadcast st operation serverSeq).rev = serverSeq ∧
      (handleOpBroadcast st operation serverSeq).queue.q = st.queue.q ∧
      (handleOpBroadcast st operation serverSeq).queue.latestAck
        = max st.queue.latestAck serverSeq := by
  intro st operation serverSeq
  refine ⟨rfl, rfl, ?_, ?_⟩
  · exact setLatestServerSeq_q st.queue serverSeq
  · exact setLatestServerSeq_latestAck st.queue serverSeq

/-- C5.  An ack carrying an `opId` and a `serverSeq` removes exactly the
pending entries whose `op_id` equals `opId` — the rest survive in order,
as a filter — and sets `latestAck` to the max of its old value and
`serverSeq`.  The `opId ≠ ""` hypothesis reflects the JS truthiness test
`if (opts.opId)`. -/
theorem ack_filters_and_advances :
    ∀ (pq : PendingQueue) (opId : String) (serverSeq : Int), opId ≠ "" →
      (pq.ack (some opId) (some serverSeq)).q = pq.q.filter (fun e => e.op_id ≠ opId) ∧
      (pq.ack (some opId) (some serverSeq)).latestAck = max pq.latestAck serverSeq := by
  intro pq opId serverSeq h
  unfold PendingQueue.ack
  constructor
  · simp [h]
  · by_cases hlt : pq.latestAck < serverSeq
    · simp only [if_pos hlt]
      omega
    · simp only [if_neg hlt]
      omega

theorem ack_filters_and_advances_witness :
    (PendingQueue.ack ⟨[⟨"a", 0, [], none, none, none⟩, ⟨"b", 1, [], none, none, none⟩], 0⟩
        (some "a") (some 3)).q
      = [⟨"a", 0, [], none, none, none⟩,
          (⟨"b", 1, [], none, none, none⟩ : PendingEdit)].filter (fun e => e.op_id ≠ "a") ∧
    (PendingQueue.ack ⟨[⟨"a", 0, [], none, none, none⟩, ⟨"b", 1, [], none, none, none⟩], 0⟩
        (some "a") (some 3)).latestAck = max 0 3 :=
  ack_filters_and_advances
    ⟨[⟨"a", 0, [], none, none, none⟩, ⟨"b", 1, [], none, none, none⟩], 0⟩ "a" 3 (by decide)

/-- C6.  `reconcileWithServer` is a no-op unless the pending queue is
empty; with an empty queue and a server text different from the local
text it enqueues and sends exactly one new edit whose `base_rev` is the
snapshot's `rev` and whose ops are `diffToOps(serverText, localText)`;
with equal texts it sends nothing and leaves the local text unchanged. -/
theorem reconcile_drift_repair :
    ∀ (st : ClientState) (snap : ServerSnapshot) (newOpId : String) (nowTs : Int),
      (st.queue.isEmpty = false → reconcileWithServer st snap newOpId nowTs = (st, none)) ∧
      (st.queue.isEmpty = true → snap.content ≠ st.content →
        (reconcileWithServer st snap newOpId nowTs).2
          = some ⟨newOpId, snap.rev, diffToOps snap.content st.content, none, none, some nowTs⟩ ∧
        (reconcileWithServer st snap newOpId nowTs).1.queue.q
          = st.queue.q
            ++ [⟨newOpId, snap.rev, diffToOps snap.content st.content, none, none, some nowTs⟩]) ∧
      (st.queue.isEmpty = true → snap.content = st.content →
        (reconcileWithServer st snap newOpId nowTs).2 = none ∧
        (reconcileWithServer st snap newOpId nowTs).1.content = st.content) := by
  intro st snap newOpId nowTs
  refine ⟨?_, ?_, ?_⟩
  · intro h
    unfold reconcileWithServer
    rw [if_pos (by simp [h])]
  · intro he hne
    have hd : diffToOps snap.content st.content ≠ [] :=
      fun hnil => hne ((diffToOps_eq_nil_iff _ _).mp hnil)
    have hlen : 0 < (diffToOps snap.content st.content).length := List.length_pos.mpr hd
    unfold reconcileWithServer
    rw [if_neg (by simp [he]), if_pos hne, if_pos hlen]
    exact ⟨rfl, by simp [PendingQueue.enqueue, setLatestServerSeq_q]⟩
  · intro he heq
    unfold reconcileWithServer
    rw [if_neg (by simp [he]), if_neg (by simp [heq])]
    exact ⟨rfl, rfl⟩

theorem reconcile_drift_repair_witness :
    (reconcileWithServer ⟨[97], 0, ⟨[], 0⟩⟩ ⟨5, []⟩ "w" 7).2
      = some ⟨"w", 5, diffToOps ([] : JStr) [97], none, none, some 7⟩ :=
  (reconcile_drift_repair ⟨[97], 0, ⟨[], 0⟩⟩ ⟨5, []⟩ "w" 7).2.1 (by decide) (by decide) |>.1

/-- C10.  Restoring a queue from its own snapshot round-trips: every
pending item (`op_id`, `base_rev`, `ops`, cursors, `ts`) is preserved in
order and so is `latestAck`.  (The deep copies `snapshot` and `replace`
perform are the identity on immutable values, which is why a later
mutation of the queue cannot reach into a taken snapshot.) -/
theorem snapshot_replace_roundtrip :
    ∀ pq : PendingQueue, PendingQueue.replace (.snap pq.snapshot) = pq := by
  intro pq
  cases pq
  simp [PendingQueue.replace, PendingQueue.snapshot]

theorem utf16Take_eq_nil_iff (n : Nat) (hn : 0 < n) (s : JStr) :
    utf16Take n s = [] ↔ s = [] := by
  cases n with
  | zero => omega
  | succ m =>
    cases s with
    | nil => simp [utf16Take]
    | cons c rest =>
      constructor
      · intro h
        exfalso
        unfold utf16Take at h
        by_cases hc : c < 0x10000
        · simp [hc] at h
        · cases m <;> simp [hc] at h
      · intro h
        simp at h

theorem mem_jsTrim (x : Nat) (s : JStr) (h : x ∈ jsTrim s) : x ∈ s := by
  unfold jsTrim at h
  rw [List.mem_reverse] at h
  have h1 : x ∈ (s.dropWhile jsWhitespace).reverse :=
    List.Sublist.mem h (List.dropWhile_sublist jsWhitespace)
  rw [List.mem_reverse] at h1
  exact List.Sublist.mem h1 (List.dropWhile_sublist jsWhitespace)

theorem strLen_utf16Take_le (n : Nat) (s : JStr) :
    (∀ x ∈ s, x ≤ 0x10FFFF) → strLen (utf16Take n s) ≤ n := by
  induction s generalizing n with
  | nil =>
    intro _
    cases n <;> simp [utf16Take, strLen]
  | cons c rest ih =>
    intro hv
    cases n with
    | zero => simp [utf16Take, strLen]
    | succ m =>
      unfold utf16Take
      by_cases hc : c < 0x10000
      · rw [if_pos hc]
        have hcons : strLen (c :: utf16Take m rest)
            = utf16Len c + strLen (utf16Take m rest) := by simp [strLen]
        rw [hcons]
        have h1 : utf16Len c = 1 := by unfold utf16Len; rw [if_pos hc]
        have h2 := ih m (fun x hx => hv x (List.mem_cons_of_mem _ hx))
        omega
      · rw [if_neg hc]
        cases m with
        | zero =>
          have hcv : c ≤ 0x10FFFF := hv c (List.mem_cons_self _ _)
          have hs : 0xD800 + (c - 0x10000) / 0x400 < 0x10000 := by omega
          simp [strLen, utf16Len, hs]
        | succ k =>
          have hcons : strLen (c :: utf16Take k rest)
              = utf16Len c + strLen (utf16Take k rest) := by simp [strLen]
          rw [hcons]
          have h1 : utf16Len c = 2 := by unfold utf16Len; rw [if_neg hc]
          have h2 := ih k (fun x hx => hv x (List.mem_cons_of_mem _ hx))
          omega

theorem profileFinalName_eq_fallback (input clientId : JStr) (h : jsTrim input = []) :
    profileFinalName input clientId = fallbackLabel clientId := by
  unfold profileFinalName
  rw [h]
  have h0 : utf16Take 32 ([] : JStr) = [] := rfl
  rw [h0]
  simp [strLen]

theorem profileFinalName_eq_take (input clientId : JStr) (h : jsTrim input ≠ []) :
    profileFinalName input clientId = utf16Take 32 (jsTrim input) := by
  unfold profileFinalName
  have hne : utf16Take 32 (jsTrim input) ≠ [] :=
    fun hnil => h ((utf16Take_eq_nil_iff 32 (by omega) (jsTrim input)).mp hnil)
  rw [if_pos ((strLen_pos_iff _).mpr hne)]

/-- C7 counterexample.  A submitted label of 17 copies of U+1D11E (17 code
points, 34 UTF-16 units) is cut by the code at 32 UTF-16 units — 16 code
points — whereas truncation "to 32 code points" would keep all 17. -/
theorem profile_label_truncation_counterexample :
    profileFinalName (List.replicate 17 0x1D11E) []
      ≠ specFinalNameCodePoints (List.replicate 17 0x1D11E) [] := by decide

/-- C7 as amended.  A profile update truncates the trimmed label to 32
UTF-16 code units — for labels of valid code points the result has UTF-16
length at most 32 — an all-whitespace or empty label is replaced by the
per-client fallback label, and a presence color failing the `#RRGGBB`
pattern is dropped, the color derived from the `client_id` being used
instead. -/
theorem profile_label_and_color :
    ∀ (input clientId c : JStr) (derive : JStr → JStr),
      (jsTrim input = [] → profileFinalName input clientId = fallbackLabel clientId) ∧
      (jsTrim input ≠ [] → profileFinalName input clientId = utf16Take 32 (jsTrim input)) ∧
      ((∀ x ∈ input, x ≤ 0x10FFFF) → jsTrim input ≠ [] →
        strLen (profileFinalName input clientId) ≤ 32) ∧
      (isHexColorStr c = false →
        resolvePresenceColor derive (some c) clientId = derive clientId) ∧
      (isHexColorStr c = true → resolvePresenceColor derive (some c) clientId = c) := by
  intro input clientId c derive
  refine ⟨profileFinalName_eq_fallback input clientId,
    profileFinalName_eq_take input clientId, ?_, ?_, ?_⟩
  · intro hv h
    rw [profileFinalName_eq_take input clientId h]
    exact strLen_utf16Take_le 32 (jsTrim input) (fun x hx => hv x (mem_jsTrim x input hx))
  · intro h
    show (if c ≠ [] ∧ isHexColorStr c = true then c else derive clientId) = derive clientId
    rw [if_neg (by simp [h])]
  · intro h
    have hcne : c ≠ [] := by
      intro hnil
      rw [hnil] at h
      exact absurd h (by decide)
    show (if c ≠ [] ∧ isHexColorStr c = true then c else derive clientId) = c
    rw [if_pos ⟨hcne, h⟩]

theorem profile_label_and_color_witness :
    profileFinalName [32, 97] [99] = utf16Take 32 (jsTrim [32, 97]) ∧
    resolvePresenceColor id (some [35, 48, 49, 97, 98, 65, 70]) [99]
      = [35, 48, 49, 97, 98, 65, 70] := by
  have h := profile_label_and_color [32, 97] [99] [35, 48, 49, 97, 98, 65, 70] id
  exact ⟨h.2.1 (by decide), h.2.2.2.2 (by decide)⟩

theorem fetchSnapshotOutcome_spec (s : Nat) :
    (fetchSnapshotOutcome s = .unauthorized ↔ s = 401) ∧
    (resOk s = true → fetchSnapshotOutcome s = .success) ∧
    (resOk s = false → s ≠ 401 → fetchSnapshotOutcome s = .genericError) := by
  unfold fetchSnapshotOutcome
  refine ⟨?_, ?_, ?_⟩
  · by_cases h : s = 401
    · simp [h]
    · rw [if_neg h]
      simp only [h, iff_false]
      split <;> simp
  · intro hok
    have h401 : s ≠ 401 := by
      simp only [resOk, Bool.and_eq_true, decide_eq_true_eq] at hok
      omega
    rw [if_neg h401, if_neg (fun hn => hn hok)]
  · intro hbad h401
    rw [if_neg h401, if_pos (by simp [hbad])]

/-- C8.  `fetchSnapshot` and `updatePasswordOnServer` throw
`UnauthorizedError` exactly when the response status is 401, throw a
generic error on any other non-ok status, and return normally on an ok
(200–299) response. -/
theorem api_unauthorized_exactly_on_401 :
    ∀ status : Nat,
      ((fetchSnapshotOutcome status = .unauthorized ↔ status = 401) ∧
        (resOk status = true → fetchSnapshotOutcome status = .success) ∧
        (resOk status = false → status ≠ 401 →
          fetchSnapshotOutcome status = .genericError)) ∧
      ((updatePasswordOutcome status = .unauthorized ↔ status = 401) ∧
        (resOk status = true → updatePasswordOutcome status = .success) ∧
        (resOk status = false → status ≠ 401 →
          updatePasswordOutcome status = .genericError)) := by
  intro status
  refine ⟨fetchSnapshotOutcome_spec status, ?_⟩
  rw [show updatePasswordOutcome = fetchSnapshotOutcome from rfl]
  exact fetchSnapshotOutcome_spec status

theorem api_unauthorized_exactly_on_401_witness :
    fetchSnapshotOutcome 404 = .genericError ∧ updatePasswordOutcome 200 = .success := by
  have h1 := api_unauthorized_exactly_on_401 404
  have h2 := api_unauthorized_exactly_on_401 200
  exact ⟨h1.1.2.2 (by decide) (by decide), h2.2.2.1 (by decide)⟩

/-- C9.  The edit page configures the heartbeat with the default 5000 ms
interval and a 30000 ms stale threshold.  On a tick with the socket OPEN:
if more than the threshold elapsed since the last received message the
tick closes the transport and fires the timeout callback instead of
sending a ping; otherwise it sends exactly one ping.  On a socket that is
not OPEN a tick sends nothing and closes nothing. -/
theorem heartbeat_behavior :
    (editPageIntervalMs = 5000 ∧ editPageStaleThresholdMs = 30000) ∧
    (∀ (now last : Int) (sendOk : Bool), editPageStaleThresholdMs < now - last →
      heartbeatTick false .opened (some editPageStaleThresholdMs) true now last sendOk
        = ⟨false, true, true, true⟩) ∧
    (∀ now last : Int, now - last ≤ editPageStaleThresholdMs →
      heartbeatTick false .opened (some editPageStaleThresholdMs) true now last true
        = ⟨true, false, false, false⟩) ∧
    (∀ (cancelled : Bool) (ready : WsReadyState) (staleThresholdMs : Option Int)
        (hasGetLast : Bool) (now last : Int) (sendOk : Bool), ready ≠ .opened →
      heartbeatTick cancelled ready staleThresholdMs hasGetLast now last sendOk
        = ⟨false, false, false, cancelled⟩) := by
  refine ⟨⟨rfl, rfl⟩, ?_, ?_, ?_⟩
  · intro now last sendOk h
    unfold heartbeatTick
    rw [if_neg (by simp), if_pos (by simp [heartbeatStale, h])]
  · intro now last h
    have h30 : now - last ≤ (30000 : Int) := h
    unfold heartbeatTick
    rw [if_neg (by simp), if_neg (by simp [heartbeatStale, editPageStaleThresholdMs]; omega),
      if_pos rfl]
  · intro cancelled ready staleThresholdMs hasGetLast now last sendOk h
    unfold heartbeatTick
    rw [if_pos (Or.inr h)]

theorem heartbeat_behavior_witness :
    heartbeatTick false .opened (some editPageStaleThresholdMs) true 40000 0 true
      = ⟨false, true, true, true⟩ ∧
    heartbeatTick false .closedState none false 0 0 true = ⟨false, false, false, false⟩ := by
  have h := heartbeat_behavior
  exact ⟨h.2.1 40000 0 true (by decide),
    h.2.2.2 false .closedState none false 0 0 true (by decide)⟩

end Theorems

end Coedit
